import Mathlib

/-
Shallow embedding of src/wx.py (a thin client for a Personal Weather
Station HTTP API).

Modelling conventions:
  - A decoded JSON value is the inductive `JSON`; a Python dict decoded
    from a JSON object is an insertion-ordered association list
    `Record := List (String × JSON)` with pairwise distinct keys
    (`nodupKeys`).  `getVal`, `setKey`, `delKey`, `updateDict` mirror
    `k in d` / `d[k]`, `d[k] = v` (overwrite in place, else append),
    `del d[k]`, and `d.update(other)` / `d | other`.
  - `datetime.date` is modelled as `Int` (the proleptic ordinal of the
    day): `date - timedelta(days=1)` is `d - 1`, and `<` / `>=` are the
    integer orders.  `date.strftime("%Y%m%d")` results are carried as
    opaque strings where they matter.
  - The HTTP transport and JSON decode are external collaborators: each
    fetch of one day's data is abstracted as a function
    `fetch : Int → List Record` giving the decoded "observations" array
    for that day.
  - A Python `raise` (TypeError from `date < None`, or from
    `dict.update` applied to a non-mapping) is `Except.error ()`.
  - The two lazy generators are embedded as fuel-indexed functions
    returning the finite list of all yielded records; theorems quantify
    over any sufficiently large fuel, so the fuel never truncates the
    run they describe.
-/

/-- A decoded JSON value.  Numbers are modelled as `Int`: no claim in this
development computes with a numeric value, records only store and compare
them. -/
inductive JSON where
  | null
  | bool (b : Bool)
  | num (n : Int)
  | str (s : String)
  | arr (elements : List JSON)
  | obj (fields : List (String × JSON))

/-- A decoded JSON object / Python dict: insertion-ordered key/value pairs. -/
abbrev Record := List (String × JSON)

/-- `getVal d k` models both `k in d` (result `isSome`) and `d[k]`. -/
def getVal : Record → String → Option JSON
  | [], _ => none
  | (k1, v) :: rest, k => if k1 = k then some v else getVal rest k

/-- `setKey d k v` models `d[k] = v`: overwrite in place if the key is
present, otherwise append the new pair at the end. -/
def setKey : Record → String → JSON → Record
  | [], k, v => [(k, v)]
  | (k1, v1) :: rest, k, v =>
    if k1 = k then (k, v) :: rest else (k1, v1) :: setKey rest k v

/-- `delKey d k` models `del d[k]`: drop the (unique) pair with that key. -/
def delKey : Record → String → Record
  | [], _ => []
  | (k1, v1) :: rest, k =>
    if k1 = k then rest else (k1, v1) :: delKey rest k

/-- `updateDict d other` models `d.update(other)` (and `d | other` builds
the same pairs in a fresh dict): assign each pair of `other` in order. -/
def updateDict (d other : Record) : Record :=
  other.foldl (fun acc p => setKey acc p.1 p.2) d

/-- The keys of a record, in order. -/
def keys (d : Record) : List String :=
  d.map Prod.fst

/-- Python dicts never hold a key twice; every record decoded from JSON
satisfies this. -/
def nodupKeys (d : Record) : Prop :=
  (keys d).Nodup

instance (d : Record) : Decidable (nodupKeys d) :=
  inferInstanceAs (Decidable ((keys d).Nodup))

/- ------------------------------------------------------------------
   WeatherAPI.__init__  (src/wx.py lines 47-53)
   ------------------------------------------------------------------ -/

/-- Python `a or b` on optional strings: `a` unless it is `None` or `""`. -/
def pyOrStr (a b : Option String) : Option String :=
  match a with
  | none => b
  | some s => if s = "" then b else some s

/-- An optional string stored as a dict value (`None` becomes JSON null). -/
def optJson : Option String → JSON
  | none => JSON.null
  | some s => JSON.str s

/-- `self._params` as built by `WeatherAPI.__init__` from the constructor
arguments and the two environment variables. -/
def initParams (api_key station envApiKey envStation : Option String)
    (units : String) : Record :=
  [("apiKey", optJson (pyOrStr api_key envApiKey)),
   ("stationId", optJson (pyOrStr station envStation)),
   ("units", JSON.str units),
   ("format", JSON.str "json"),
   ("numericPrecision", JSON.str "decimal")]

/-- The per-call params of the date-free endpoint methods (line 76 and its
clones): `self._params | dict(stationId=station) if station else
self._params`.  A falsy station (None or "") selects the stored dict
itself; a truthy one builds a fresh merged dict. -/
def buildParams (config : Record) (station : Option String) : Record :=
  match station with
  | none => config
  | some s =>
    if s = "" then config
    else updateDict config [("stationId", JSON.str s)]

/-- The params handling of `history_daily` (lines 131-132; `history_hourly`
lines 163-164 are identical): build `params` as above, then assign
`params["date"]`.  Returns (params sent with the request, value of
`self._params` after the call).  When the station is falsy, `params` is
the stored dict itself, so the date assignment lands in the stored
config. -/
def history_daily_params (stored : Record) (station : Option String)
    (dateStr : String) : Record × Record :=
  match station with
  | some s =>
    if s = "" then
      let p := setKey stored "date" (JSON.str dateStr)
      (p, p)
    else
      (setKey (updateDict stored [("stationId", JSON.str s)]) "date"
        (JSON.str dateStr),
       stored)
  | none =>
    let p := setKey stored "date" (JSON.str dateStr)
    (p, p)

/- ------------------------------------------------------------------
   WeatherAPI._transform  (src/wx.py lines 58-67)
   ------------------------------------------------------------------ -/

/-- The reserved nested unit-system keys, in the order the loop checks
them. -/
def reservedKeys : List String :=
  ["imperial", "metric", "uk_hybrid"]

/-- The `for attr in ...: if attr in record: record.update(record[attr]);
del record[attr]; break` loop of `_transform`.  `record.update` applied
to a value that is not a mapping raises, which is `Except.error ()`. -/
def transformLoop (record : Record) : List String → Except Unit Record
  | [] => Except.ok record
  | attr :: rest =>
    match getVal record attr with
    | some v =>
      match v with
      | JSON.obj sub => Except.ok (delKey (updateDict record sub) attr)
      | _ => Except.error ()
    | none => transformLoop record rest

/-- `WeatherAPI._transform`: flatten the first present reserved key. -/
def transform (record : Record) : Except Unit Record :=
  transformLoop record reservedKeys

/-- Modelled from the spec: "merge the matched nested object's entries into
the top-level mapping, overwriting any top-level key of the same name,
then delete the nested key" — the single-key merge `_transform` is claimed
to apply to the first present reserved key.  Used to state claim C5 as a
refinement. -/
def mergeAttr (record : Record) (attr : String) : Except Unit Record :=
  match getVal record attr with
  | none => Except.ok record
  | some (JSON.obj sub) => Except.ok (delKey (updateDict record sub) attr)
  | some _ => Except.error ()

/- ------------------------------------------------------------------
   history_daily / history_hourly response handling
   (src/wx.py lines 135-138 and line 168)
   ------------------------------------------------------------------ -/

/-- The tail of `history_daily` after the HTTP call: given the decoded
`observations` array, return `None` when it is empty, else the
transformed first observation. -/
def history_daily (observations : List Record) : Except Unit (Option Record) :=
  match observations with
  | [] => Except.ok none
  | o :: _ =>
    match transform o with
    | Except.error e => Except.error e
    | Except.ok r => Except.ok (some r)

/-- `[self._transform(o) for o in observations]`: transform each record in
order, propagating the first raise. -/
def transformAll : List Record → Except Unit (List Record)
  | [] => Except.ok []
  | o :: rest =>
    match transform o with
    | Except.error e => Except.error e
    | Except.ok r =>
      match transformAll rest with
      | Except.error e => Except.error e
      | Except.ok rs => Except.ok (r :: rs)

/-- The tail of `history_hourly` after the HTTP call (line 168). -/
def history_hourly (observations : List Record) : Except Unit (List Record) :=
  transformAll observations

/- ------------------------------------------------------------------
   The range generators (src/wx.py lines 140-152 and 170-182)
   ------------------------------------------------------------------ -/

/-- The shared first four lines of `history_daily_range` and
`history_hourly_range` (lines 142-145 = 172-175):

  if not start: start = datetime.date.today()
  elif start < end: start, end = end, start

A `datetime.date` is always truthy, so `not start` means `start is None`.
When `start` is given and `end` is `None`, the `elif` evaluates
`start < None`, which raises TypeError: `Except.error ()`.  On success the
result is the effective (current, end) pair the loop starts from. -/
def rangeInit (today : Int) (start end_ : Option Int) :
    Except Unit (Int × Option Int) :=
  match start with
  | none => Except.ok (today, end_)
  | some s =>
    match end_ with
    | none => Except.error ()
    | some e =>
      if s < e then Except.ok (e, some s) else Except.ok (s, some e)

/-- The loop guard `end is None or current >= end`. -/
def loopCond (end_ : Option Int) (current : Int) : Bool :=
  match end_ with
  | none => true
  | some e => decide (e ≤ current)

/-- The `while` loop of `history_daily_range` (lines 147-152), as the list
of all yielded records.  `fetch d` is the decoded observations array the
single-day fetch would obtain for day `d`; `if not result: return` fires
when `history_daily` returned `None` or an empty dict.  The fuel only has
to exceed the number of iterations actually run. -/
def history_daily_range_loop (fetch : Int → List Record) (end_ : Option Int) :
    Nat → Int → Except Unit (List Record)
  | 0, _ => Except.ok []
  | fuel + 1, current =>
    if loopCond end_ current then
      match history_daily (fetch current) with
      | Except.error e => Except.error e
      | Except.ok none => Except.ok []
      | Except.ok (some r) =>
        if r.isEmpty then Except.ok []
        else
          Except.map (fun rest => r :: rest)
            (history_daily_range_loop fetch end_ fuel (current - 1))
    else Except.ok []

/-- `WeatherAPI.history_daily_range` (lines 140-152): initialisation then
loop. -/
def history_daily_range (fetch : Int → List Record) (today : Int)
    (start end_ : Option Int) (fuel : Nat) : Except Unit (List Record) :=
  match rangeInit today start end_ with
  | Except.error e => Except.error e
  | Except.ok (s, stop) => history_daily_range_loop fetch stop fuel s

/-- The days on which `history_daily_range`'s loop performs a single-day
fetch (the guard is checked before each fetch). -/
def daily_loop_dates (fetch : Int → List Record) (end_ : Option Int) :
    Nat → Int → List Int
  | 0, _ => []
  | fuel + 1, current =>
    if loopCond end_ current then
      current ::
        (match history_daily (fetch current) with
         | Except.ok (some r) =>
           if r.isEmpty then []
           else daily_loop_dates fetch end_ fuel (current - 1)
         | _ => [])
    else []

/-- The days `history_daily_range` fetches, including the initialisation
(no fetch at all when the initialisation raises). -/
def history_daily_range_dates (fetch : Int → List Record) (today : Int)
    (start end_ : Option Int) (fuel : Nat) : List Int :=
  match rangeInit today start end_ with
  | Except.error _ => []
  | Except.ok (s, stop) => daily_loop_dates fetch stop fuel s

/-- The `while` loop of `history_hourly_range` (lines 177-182):
`yield from reversed(results)` then step one day back. -/
def history_hourly_range_loop (fetch : Int → List Record) (end_ : Option Int) :
    Nat → Int → Except Unit (List Record)
  | 0, _ => Except.ok []
  | fuel + 1, current =>
    if loopCond end_ current then
      match history_hourly (fetch current) with
      | Except.error e => Except.error e
      | Except.ok results =>
        if results.isEmpty then Except.ok []
        else
          Except.map (fun rest => results.reverse ++ rest)
            (history_hourly_range_loop fetch end_ fuel (current - 1))
    else Except.ok []

/-- `WeatherAPI.history_hourly_range` (lines 170-182). -/
def history_hourly_range (fetch : Int → List Record) (today : Int)
    (start end_ : Option Int) (fuel : Nat) : Except Unit (List Record) :=
  match rangeInit today start end_ with
  | Except.error e => Except.error e
  | Except.ok (s, stop) => history_hourly_range_loop fetch stop fuel s

/-- The days on which `history_hourly_range`'s loop performs a fetch. -/
def hourly_loop_dates (fetch : Int → List Record) (end_ : Option Int) :
    Nat → Int → List Int
  | 0, _ => []
  | fuel + 1, current =>
    if loopCond end_ current then
      current ::
        (match history_hourly (fetch current) with
         | Except.ok results =>
           if results.isEmpty then []
           else hourly_loop_dates fetch end_ fuel (current - 1)
         | Except.error _ => [])
    else []

/-- The days `history_hourly_range` fetches, including the initialisation. -/
def history_hourly_range_dates (fetch : Int → List Record) (today : Int)
    (start end_ : Option Int) (fuel : Nat) : List Int :=
  match rangeInit today start end_ with
  | Except.error _ => []
  | Except.ok (s, stop) => hourly_loop_dates fetch stop fuel s

/- ------------------------------------------------------------------
   Expected shapes used to state the range-generator claims
   ------------------------------------------------------------------ -/

/-- `descDates d n`: the `n` consecutive days `d, d-1, ...` newest first. -/
def descDates : Int → Nat → List Int
  | _, 0 => []
  | d, n + 1 => d :: descDates (d - 1) n

/-- One record per day for the `n` days `d, d-1, ...`, newest first. -/
def expectedYields (res : Int → Record) : Int → Nat → List Record
  | _, 0 => []
  | d, n + 1 => res d :: expectedYields res (d - 1) n

/-- Per-day batches, each reversed, for the `n` days `d, d-1, ...`. -/
def expectedHourlyYields (resH : Int → List Record) : Int → Nat → List Record
  | _, 0 => []
  | d, n + 1 => (resH d).reverse ++ expectedHourlyYields resH (d - 1) n

/- ------------------------------------------------------------------
   Concrete data for the witnesses
   ------------------------------------------------------------------ -/

/-- A client config as `__init__` builds it from explicit arguments. -/
def cfg0 : Record :=
  initParams (some "KEY") (some "KSTATION1") none none "e"

/-- Day-indexed observations: one summary record for each of days 1..3,
nothing earlier. -/
def fetchC6 : Int → List Record :=
  fun d => if 1 ≤ d ∧ d ≤ 3 then [[("temp", JSON.num d)]] else []

/-- The per-day normalized record matching `fetchC6`. -/
def resC6 : Int → Record :=
  fun d => [("temp", JSON.num d)]

/-- Day-indexed observations with data on every day. -/
def fetchC7 : Int → List Record :=
  fun _ => [[("t", JSON.num 0)]]

/-- The per-day normalized record matching `fetchC7`. -/
def resC7 : Int → Record :=
  fun _ => [("t", JSON.num 0)]

/-- Two hourly records per day for days 1..2, nothing earlier. -/
def fetchC8 : Int → List Record :=
  fun d =>
    if 1 ≤ d ∧ d ≤ 2 then
      [[("h", JSON.num (10 * d))], [("h", JSON.num (10 * d + 1))]]
    else []

/-- The per-day normalized batch matching `fetchC8` (fetch order). -/
def resC8 : Int → List Record :=
  fun d => [[("h", JSON.num (10 * d))], [("h", JSON.num (10 * d + 1))]]


/- ==================================================================
   Lemmas about the dict operations
   ================================================================== -/

theorem getVal_eq_none_iff (d : Record) (k : String) :
    getVal d k = none ↔ k ∉ keys d := by
  induction d with
  | nil => simp [getVal, keys]
  | cons p rest ih =>
    obtain ⟨k1, v⟩ := p
    by_cases h : k1 = k
    · subst h
      simp [getVal, keys]
    · simp [getVal, keys, h, ih, Ne.symm h]

theorem getVal_setKey_self (d : Record) (k : String) (v : JSON) :
    getVal (setKey d k v) k = some v := by
  induction d with
  | nil => simp [setKey, getVal]
  | cons p rest ih =>
    obtain ⟨k1, v1⟩ := p
    by_cases h : k1 = k
    · simp [setKey, getVal, h]
    · simp [setKey, getVal, h, ih]

theorem getVal_setKey_ne (d : Record) (k : String) (v : JSON) (j : String)
    (h : j ≠ k) : getVal (setKey d k v) j = getVal d j := by
  induction d with
  | nil => simp [setKey, getVal, Ne.symm h]
  | cons p rest ih =>
    obtain ⟨k1, v1⟩ := p
    by_cases h1 : k1 = k
    · subst h1
      simp [setKey, getVal, Ne.symm h, h]
    · simp [setKey, getVal, h1, ih]

theorem keys_setKey (d : Record) (k : String) (v : JSON) :
    keys (setKey d k v) = if k ∈ keys d then keys d else keys d ++ [k] := by
  induction d with
  | nil => simp [setKey, keys]
  | cons p rest ih =>
    obtain ⟨k1, v1⟩ := p
    by_cases h : k1 = k
    · subst h
      simp [setKey, keys]
    · have hset : setKey ((k1, v1) :: rest) k v = (k1, v1) :: setKey rest k v := by
        simp [setKey, h]
      rw [hset,
        show keys ((k1, v1) :: setKey rest k v) = k1 :: keys (setKey rest k v)
          from rfl,
        show keys ((k1, v1) :: rest) = k1 :: keys rest from rfl, ih]
      by_cases hm : k ∈ keys rest
      · simp [hm, Ne.symm h]
      · simp [hm, Ne.symm h]

theorem nodupKeys_setKey (d : Record) (k : String) (v : JSON)
    (h : nodupKeys d) : nodupKeys (setKey d k v) := by
  unfold nodupKeys at *
  rw [keys_setKey]
  by_cases hm : k ∈ keys d
  · simpa [hm] using h
  · simp only [hm, if_false]
    simpa [List.nodup_append, hm] using h

theorem nodupKeys_updateDict (other : Record) (d : Record)
    (h : nodupKeys d) : nodupKeys (updateDict d other) := by
  induction other generalizing d with
  | nil => exact h
  | cons p rest ih =>
    simp only [updateDict, List.foldl_cons]
    exact ih (setKey d p.1 p.2) (nodupKeys_setKey d p.1 p.2 h)

theorem getVal_updateDict_of_not_mem (other : Record) (d : Record)
    (k : String) (h : ∀ p ∈ other, p.1 ≠ k) :
    getVal (updateDict d other) k = getVal d k := by
  induction other generalizing d with
  | nil => rfl
  | cons p rest ih =>
    simp only [updateDict, List.foldl_cons]
    rw [show List.foldl (fun acc q => setKey acc q.1 q.2) (setKey d p.1 p.2)
          rest = updateDict (setKey d p.1 p.2) rest from rfl]
    rw [ih (setKey d p.1 p.2) (fun q hq => h q (List.mem_cons_of_mem p hq))]
    exact getVal_setKey_ne d p.1 p.2 k (Ne.symm (h p (List.mem_cons_self p rest)))

theorem getVal_updateDict_of_mem (other : Record) (d : Record)
    (k : String) (v : JSON) (hnd : nodupKeys other) (hmem : (k, v) ∈ other) :
    getVal (updateDict d other) k = some v := by
  induction other generalizing d with
  | nil => cases hmem
  | cons p rest ih =>
    obtain ⟨k1, v1⟩ := p
    simp only [updateDict, List.foldl_cons]
    rw [show List.foldl (fun acc q => setKey acc q.1 q.2) (setKey d k1 v1)
          rest = updateDict (setKey d k1 v1) rest from rfl]
    rcases List.mem_cons.mp hmem with heq | hrest
    · injection heq with hk hv
      subst hk; subst hv
      have hknot : k ∉ keys rest := (List.nodup_cons.mp hnd).1
      have hknotin : ∀ q ∈ rest, q.1 ≠ k := by
        intro q hq hqk
        exact hknot (hqk ▸ List.mem_map_of_mem Prod.fst hq)
      rw [getVal_updateDict_of_not_mem rest (setKey d k v) k hknotin]
      exact getVal_setKey_self d k v
    · exact ih (setKey d k1 v1) (List.Nodup.of_cons hnd) hrest

theorem getVal_delKey_ne (d : Record) (k : String) (j : String)
    (h : j ≠ k) : getVal (delKey d k) j = getVal d j := by
  induction d with
  | nil => rfl
  | cons p rest ih =>
    obtain ⟨k1, v1⟩ := p
    by_cases h1 : k1 = k
    · subst h1
      simp [delKey, getVal, Ne.symm h]
    · simp [delKey, getVal, h1, ih]

theorem getVal_delKey_self (d : Record) (k : String) (h : nodupKeys d) :
    getVal (delKey d k) k = none := by
  induction d with
  | nil => rfl
  | cons p rest ih =>
    obtain ⟨k1, v1⟩ := p
    unfold nodupKeys keys at h
    simp only [List.map_cons, List.nodup_cons] at h
    by_cases h1 : k1 = k
    · subst h1
      simp only [delKey, if_pos rfl]
      exact (getVal_eq_none_iff rest k1).mpr h.1
    · simp only [delKey, if_neg h1, getVal, if_neg h1]
      exact ih h.2

/- ==================================================================
   Lemmas about the transform
   ================================================================== -/

theorem transform_of_none (record : Record)
    (h1 : getVal record "imperial" = none)
    (h2 : getVal record "metric" = none)
    (h3 : getVal record "uk_hybrid" = none) :
    transform record = Except.ok record := by
  simp [transform, reservedKeys, transformLoop, h1, h2, h3]

theorem transform_eq_of_single (record : Record) (attr : String) (sub : Record)
    (hattr : attr ∈ reservedKeys)
    (hget : getVal record attr = some (JSON.obj sub))
    (hothers : ∀ a ∈ reservedKeys, a ≠ attr → getVal record a = none) :
    transform record = Except.ok (delKey (updateDict record sub) attr) := by
  simp only [reservedKeys, List.mem_cons, List.not_mem_nil, or_false] at hattr
  rcases hattr with rfl | rfl | rfl
  · simp [transform, reservedKeys, transformLoop, hget]
  · have h1 : getVal record "imperial" = none :=
      hothers "imperial" (by simp [reservedKeys]) (by decide)
    simp [transform, reservedKeys, transformLoop, h1, hget]
  · have h1 : getVal record "imperial" = none :=
      hothers "imperial" (by simp [reservedKeys]) (by decide)
    have h2 : getVal record "metric" = none :=
      hothers "metric" (by simp [reservedKeys]) (by decide)
    simp [transform, reservedKeys, transformLoop, h1, h2, hget]

theorem merged_reserved_none (record : Record) (attr : String) (sub : Record)
    (hnd : nodupKeys record)
    (hothers : ∀ a ∈ reservedKeys, a ≠ attr → getVal record a = none)
    (hsub : ∀ p ∈ sub, p.1 ∉ reservedKeys) :
    ∀ a ∈ reservedKeys, getVal (delKey (updateDict record sub) attr) a = none := by
  intro a ha
  by_cases h : a = attr
  · subst h
    exact getVal_delKey_self (updateDict record sub) a
      (nodupKeys_updateDict sub record hnd)
  · rw [getVal_delKey_ne (updateDict record sub) attr a h]
    rw [getVal_updateDict_of_not_mem sub record a
      (fun p hp hpk => hsub p hp (hpk ▸ ha))]
    exact hothers a ha h

/- ==================================================================
   Lemmas about the loop guard and the fetched-dates functions
   ================================================================== -/

theorem loopCond_of_le (end_ : Option Int) (D current : Int)
    (hend : ∀ e, end_ = some e → e ≤ D) (h : D ≤ current) :
    loopCond end_ current = true := by
  cases end_ with
  | none => rfl
  | some e =>
    simp only [loopCond, decide_eq_true_eq]
    exact le_trans (hend e rfl) h

theorem daily_loop_dates_stop (fetch : Int → List Record) (e : Int)
    (fuel : Nat) (current : Int) (h : current < e) :
    daily_loop_dates fetch (some e) fuel current = [] := by
  cases fuel with
  | zero => rfl
  | succ f =>
    simp [daily_loop_dates, loopCond, show ¬ e ≤ current from by omega]

theorem hourly_loop_dates_stop (fetch : Int → List Record) (e : Int)
    (fuel : Nat) (current : Int) (h : current < e) :
    hourly_loop_dates fetch (some e) fuel current = [] := by
  cases fuel with
  | zero => rfl
  | succ f =>
    simp [hourly_loop_dates, loopCond, show ¬ e ≤ current from by omega]

theorem daily_loop_dates_desc (fetch : Int → List Record) (res : Int → Record)
    (b : Int) :
    ∀ (fuel : Nat) (current : Int), b ≤ current →
      (current - b).toNat < fuel →
      (∀ d : Int, b ≤ d → d ≤ current →
        history_daily (fetch d) = Except.ok (some (res d)) ∧
        (res d).isEmpty = false) →
      daily_loop_dates fetch (some b) fuel current =
        descDates current ((current - b).toNat + 1) := by
  intro fuel
  induction fuel with
  | zero => intro current h1 h2 _; omega
  | succ f ih =>
    intro current hb hfuel hres
    have hc : loopCond (some b) current = true := by
      simp only [loopCond, decide_eq_true_eq]; exact hb
    obtain ⟨hfetch, hne⟩ := hres current hb le_rfl
    rcases eq_or_lt_of_le hb with heq | hlt
    · subst heq
      have hzero : (b - b).toNat = 0 := by omega
      rw [hzero]
      simp only [daily_loop_dates, hc, if_true, hfetch, hne, Bool.false_eq_true,
        if_false]
      rw [daily_loop_dates_stop fetch b f (b - 1) (by omega)]
      simp [descDates]
    · have hn : (current - b).toNat = ((current - 1) - b).toNat + 1 := by omega
      rw [hn]
      simp only [daily_loop_dates, hc, if_true, hfetch, hne, Bool.false_eq_true,
        if_false]
      rw [ih (current - 1) (by omega) (by omega)
        (fun d hd1 hd2 => hres d hd1 (by omega))]
      simp [descDates]

theorem hourly_loop_dates_desc (fetch : Int → List Record)
    (resH : Int → List Record) (b : Int) :
    ∀ (fuel : Nat) (current : Int), b ≤ current →
      (current - b).toNat < fuel →
      (∀ d : Int, b ≤ d → d ≤ current →
        history_hourly (fetch d) = Except.ok (resH d) ∧
        (resH d).isEmpty = false) →
      hourly_loop_dates fetch (some b) fuel current =
        descDates current ((current - b).toNat + 1) := by
  intro fuel
  induction fuel with
  | zero => intro current h1 h2 _; omega
  | succ f ih =>
    intro current hb hfuel hres
    have hc : loopCond (some b) current = true := by
      simp only [loopCond, decide_eq_true_eq]; exact hb
    obtain ⟨hfetch, hne⟩ := hres current hb le_rfl
    rcases eq_or_lt_of_le hb with heq | hlt
    · subst heq
      have hzero : (b - b).toNat = 0 := by omega
      rw [hzero]
      simp only [hourly_loop_dates, hc, if_true, hfetch, hne, Bool.false_eq_true,
        if_false]
      rw [hourly_loop_dates_stop fetch b f (b - 1) (by omega)]
      simp [descDates]
    · have hn : (current - b).toNat = ((current - 1) - b).toNat + 1 := by omega
      rw [hn]
      simp only [hourly_loop_dates, hc, if_true, hfetch, hne, Bool.false_eq_true,
        if_false]
      rw [ih (current - 1) (by omega) (by omega)
        (fun d hd1 hd2 => hres d hd1 (by omega))]
      simp [descDates]

theorem daily_loop_dates_lower_bound (fetch : Int → List Record) (e : Int) :
    ∀ (fuel : Nat) (current d : Int),
      d ∈ daily_loop_dates fetch (some e) fuel current → e ≤ d := by
  intro fuel
  induction fuel with
  | zero => intro current d h; cases h
  | succ f ih =>
    intro current d h
    by_cases hc : loopCond (some e) current = true
    · simp only [daily_loop_dates, hc, if_true] at h
      rcases List.mem_cons.mp h with rfl | htail
      · simpa [loopCond, decide_eq_true_eq] using hc
      · revert htail
        split
        · split
          · intro htail; cases htail
          · intro htail; exact ih (current - 1) d htail
        · intro htail; cases htail
    · simp only [daily_loop_dates, hc, if_false] at h
      cases h

theorem hourly_loop_dates_lower_bound (fetch : Int → List Record) (e : Int) :
    ∀ (fuel : Nat) (current d : Int),
      d ∈ hourly_loop_dates fetch (some e) fuel current → e ≤ d := by
  intro fuel
  induction fuel with
  | zero => intro current d h; cases h
  | succ f ih =>
    intro current d h
    by_cases hc : loopCond (some e) current = true
    · simp only [hourly_loop_dates, hc, if_true] at h
      rcases List.mem_cons.mp h with rfl | htail
      · simpa [loopCond, decide_eq_true_eq] using hc
      · revert htail
        split
        · split
          · intro htail; cases htail
          · intro htail; exact ih (current - 1) d htail
        · intro htail; cases htail
    · simp only [hourly_loop_dates, hc, if_false] at h
      cases h

/- ==================================================================
   Claims
   ================================================================== -/

/-- Claim C1 (refuted; the code mutates its stored configuration): when
`history_daily` is called without a station override, the per-call params
are the stored `_params` dict itself, so the `params["date"]` assignment
at line 132 leaves a `date` entry in the stored configuration, which the
claim says is never mutated.  Evaluated on the config `__init__` builds
from explicit arguments and a call with `date = 2024-01-02`. -/
theorem c1_history_daily_mutates_stored_params :
    getVal (history_daily_params cfg0 none "20240102").2 "date"
      = some (JSON.str "20240102") ∧
    getVal cfg0 "date" = none ∧
    (history_daily_params cfg0 none "20240102").2 ≠ cfg0 := by
  refine ⟨rfl, rfl, fun h => ?_⟩
  have h2 : getVal (history_daily_params cfg0 none "20240102").2 "date"
      = getVal cfg0 "date" := by rw [h]
  rw [show getVal (history_daily_params cfg0 none "20240102").2 "date"
        = some (JSON.str "20240102") from rfl,
      show getVal cfg0 "date" = (none : Option JSON) from rfl] at h2
  exact Option.noConfusion h2

/-- Claim C2 (refuted; the code raises): with an explicit `start` and
`end = None`, line 144 evaluates `start < end` against `None`, raising
TypeError as soon as the generator runs, for both `history_daily_range`
and `history_hourly_range`.  The claim says no swap comparison is
attempted and iteration proceeds without error. -/
theorem c2_explicit_start_none_end_raises :
    rangeInit 0 (some 1) none = Except.error () ∧
    history_daily_range (fun _ => []) 0 (some 1) none 5 = Except.error () ∧
    history_hourly_range (fun _ => []) 0 (some 1) none 5 = Except.error () :=
  ⟨rfl, rfl, rfl⟩

/-- Claim C9 (confirmed): `history_daily` on a response with an empty
observations list returns the explicit absent value, not an error, and
on a non-empty list returns the transformed first observation. -/
theorem c9_history_daily_empty_none :
    history_daily [] = Except.ok none ∧
    ∀ (o : Record) (rest : List Record) (r : Record),
      transform o = Except.ok r →
      history_daily (o :: rest) = Except.ok (some r) := by
  refine ⟨rfl, fun o rest r h => ?_⟩
  simp [history_daily, h]

/-- Witness for C9 at the spec's example record. -/
theorem c9_witness :
    history_daily [[("obsTimeUtc", JSON.str "2024-01-02T12:00:00Z"),
                    ("imperial", JSON.obj [("temp", JSON.num 72)])]]
      = Except.ok (some [("obsTimeUtc", JSON.str "2024-01-02T12:00:00Z"),
                         ("temp", JSON.num 72)]) :=
  c9_history_daily_empty_none.2
    [("obsTimeUtc", JSON.str "2024-01-02T12:00:00Z"),
     ("imperial", JSON.obj [("temp", JSON.num 72)])]
    []
    [("obsTimeUtc", JSON.str "2024-01-02T12:00:00Z"), ("temp", JSON.num 72)]
    rfl

/-- Claim C10 (confirmed): a falsy per-call station (None or the empty
string) leaves the request params exactly the stored config, so the
request carries the configured default station id; only a truthy station
overrides `stationId` in a fresh merged dict. -/
theorem c10_falsy_station_override (config : Record) :
    buildParams config none = config ∧
    buildParams config (some "") = config ∧
    (∀ s : String, s ≠ "" →
      buildParams config (some s)
        = updateDict config [("stationId", JSON.str s)]) ∧
    (∀ s : String, s ≠ "" →
      getVal (buildParams config (some s)) "stationId"
        = some (JSON.str s)) := by
  refine ⟨rfl, rfl, fun s hs => by simp [buildParams, hs], fun s hs => ?_⟩
  simp only [buildParams, hs, if_false]
  rw [show updateDict config [("stationId", JSON.str s)]
        = setKey config "stationId" (JSON.str s) from rfl]
  exact getVal_setKey_self config "stationId" (JSON.str s)

/-- Witness for C10: overriding the configured station "KSTATION1" with
"KXYZ" on one call. -/
theorem c10_witness :
    buildParams cfg0 (some "KXYZ")
      = updateDict cfg0 [("stationId", JSON.str "KXYZ")] ∧
    getVal (buildParams cfg0 (some "KXYZ")) "stationId"
      = some (JSON.str "KXYZ") ∧
    buildParams cfg0 (some "") = cfg0 :=
  ⟨(c10_falsy_station_override cfg0).2.2.1 "KXYZ" (by decide),
   (c10_falsy_station_override cfg0).2.2.2 "KXYZ" (by decide),
   (c10_falsy_station_override cfg0).2.1⟩

/-- Claim C5 (confirmed): `_transform` checks `imperial`, `metric`,
`uk_hybrid` in that fixed order and behaves as the single-key merge
`mergeAttr` (merge the sub-object over the top level, delete the key) on
the first key present, regardless of any later reserved key; with none
of the three present it returns the record unchanged. -/
theorem c5_first_match_merge (record : Record) :
    (getVal record "imperial" ≠ none →
      transform record = mergeAttr record "imperial") ∧
    (getVal record "imperial" = none → getVal record "metric" ≠ none →
      transform record = mergeAttr record "metric") ∧
    (getVal record "imperial" = none → getVal record "metric" = none →
      getVal record "uk_hybrid" ≠ none →
      transform record = mergeAttr record "uk_hybrid") ∧
    (getVal record "imperial" = none → getVal record "metric" = none →
      getVal record "uk_hybrid" = none →
      transform record = Except.ok record) := by
  refine ⟨fun h1 => ?_, fun h1 h2 => ?_, fun h1 h2 h3 => ?_,
    fun h1 h2 h3 => transform_of_none record h1 h2 h3⟩
  · rcases hv : getVal record "imperial" with _ | v
    · exact absurd hv h1
    · cases v <;> simp [transform, reservedKeys, transformLoop, mergeAttr, hv]
  · rcases hv : getVal record "metric" with _ | v
    · exact absurd hv h2
    · cases v <;> simp [transform, reservedKeys, transformLoop, mergeAttr, h1, hv]
  · rcases hv : getVal record "uk_hybrid" with _ | v
    · exact absurd hv h3
    · cases v <;>
        simp [transform, reservedKeys, transformLoop, mergeAttr, h1, h2, hv]

/-- Witness for C5 on a record carrying both `imperial` and `metric`:
only the first match is merged, the later reserved key is untouched. -/
theorem c5_witness :
    transform [("imperial", JSON.obj [("temp", JSON.num 1)]),
               ("metric", JSON.obj [("tempC", JSON.num 2)])]
      = mergeAttr [("imperial", JSON.obj [("temp", JSON.num 1)]),
                   ("metric", JSON.obj [("tempC", JSON.num 2)])] "imperial" :=
  (c5_first_match_merge
    [("imperial", JSON.obj [("temp", JSON.num 1)]),
     ("metric", JSON.obj [("tempC", JSON.num 2)])]).1
    (fun h => Option.noConfusion h)

/-- Counterexample to claim C3 as stated: the record
`[("imperial", obj [("metric", obj [("temp", 1)])])]` has exactly one
reserved key at top level, yet normalizing it exposes a nested `metric`
key, so a second normalization flattens again and the results differ. -/
theorem c3_counterexample :
    transform [("imperial", JSON.obj [("metric", JSON.obj [("temp", JSON.num 1)])])]
      = Except.ok [("metric", JSON.obj [("temp", JSON.num 1)])] ∧
    transform [("metric", JSON.obj [("temp", JSON.num 1)])]
      = Except.ok [("temp", JSON.num 1)] ∧
    Except.bind
        (transform [("imperial", JSON.obj [("metric", JSON.obj [("temp", JSON.num 1)])])])
        transform
      ≠ transform [("imperial", JSON.obj [("metric", JSON.obj [("temp", JSON.num 1)])])] := by
  refine ⟨rfl, rfl, fun h => ?_⟩
  rw [show Except.bind
        (transform [("imperial", JSON.obj [("metric", JSON.obj [("temp", JSON.num 1)])])])
        transform = Except.ok [("temp", JSON.num 1)] from rfl,
      show transform [("imperial", JSON.obj [("metric", JSON.obj [("temp", JSON.num 1)])])]
        = Except.ok [("metric", JSON.obj [("temp", JSON.num 1)])] from rfl] at h
  injection h with h1
  injection h1 with h2 h3
  injection h2 with h4 h5
  exact absurd h4 (by decide)

/-- Claim C3 as amended (proved): normalization is idempotent for every
record with distinct keys holding at most one reserved key, provided the
sub-object under a present reserved key does not itself contain a
reserved key — the counterexample shows this proviso is necessary.  A
present reserved key whose value is not an object makes both a single
and a double application raise the same error, so those records satisfy
the equation in the `Except` embedding. -/
theorem c3_amended (record : Record)
    (hnd : nodupKeys record)
    (hone : (getVal record "imperial" = none ∨ getVal record "metric" = none) ∧
            (getVal record "imperial" = none ∨ getVal record "uk_hybrid" = none) ∧
            (getVal record "metric" = none ∨ getVal record "uk_hybrid" = none))
    (hsub : ∀ a ∈ reservedKeys, ∀ sub : Record,
      getVal record a = some (JSON.obj sub) → ∀ p ∈ sub, p.1 ∉ reservedKeys) :
    Except.bind (transform record) transform = transform record := by
  obtain ⟨h12, h13, h23⟩ := hone
  have key : ∀ r : Record, transform record = Except.ok r →
      transform r = Except.ok r := by
    intro r htr
    rcases hi : getVal record "imperial" with _ | v
    · rcases hm : getVal record "metric" with _ | v
      · rcases hu : getVal record "uk_hybrid" with _ | v
        · simp only [transform, reservedKeys, transformLoop, hi, hm, hu,
            Except.ok.injEq] at htr
          subst htr
          exact transform_of_none record hi hm hu
        · cases v with
          | obj sub =>
            simp only [transform, reservedKeys, transformLoop, hi, hm, hu,
              Except.ok.injEq] at htr
            subst htr
            have hres := merged_reserved_none record "uk_hybrid" sub hnd
              (by intro a ha hne
                  simp only [reservedKeys, List.mem_cons, List.not_mem_nil,
                    or_false] at ha
                  rcases ha with rfl | rfl | rfl
                  · exact hi
                  · exact hm
                  · exact absurd rfl hne)
              (hsub "uk_hybrid" (by simp [reservedKeys]) sub hu)
            exact transform_of_none _
              (hres "imperial" (by simp [reservedKeys]))
              (hres "metric" (by simp [reservedKeys]))
              (hres "uk_hybrid" (by simp [reservedKeys]))
          | null => simp [transform, reservedKeys, transformLoop, hi, hm, hu] at htr
          | bool b => simp [transform, reservedKeys, transformLoop, hi, hm, hu] at htr
          | num n => simp [transform, reservedKeys, transformLoop, hi, hm, hu] at htr
          | str s => simp [transform, reservedKeys, transformLoop, hi, hm, hu] at htr
          | arr es => simp [transform, reservedKeys, transformLoop, hi, hm, hu] at htr
      · cases v with
        | obj sub =>
          simp only [transform, reservedKeys, transformLoop, hi, hm,
            Except.ok.injEq] at htr
          subst htr
          have hu : getVal record "uk_hybrid" = none := by
            rcases h23 with h | h
            · rw [hm] at h; exact Option.noConfusion h
            · exact h
          have hres := merged_reserved_none record "metric" sub hnd
            (by intro a ha hne
                simp only [reservedKeys, List.mem_cons, List.not_mem_nil,
                  or_false] at ha
                rcases ha with rfl | rfl | rfl
                · exact hi
                · exact absurd rfl hne
                · exact hu)
            (hsub "metric" (by simp [reservedKeys]) sub hm)
          exact transform_of_none _
            (hres "imperial" (by simp [reservedKeys]))
            (hres "metric" (by simp [reservedKeys]))
            (hres "uk_hybrid" (by simp [reservedKeys]))
        | null => simp [transform, reservedKeys, transformLoop, hi, hm] at htr
        | bool b => simp [transform, reservedKeys, transformLoop, hi, hm] at htr
        | num n => simp [transform, reservedKeys, transformLoop, hi, hm] at htr
        | str s => simp [transform, reservedKeys, transformLoop, hi, hm] at htr
        | arr es => simp [transform, reservedKeys, transformLoop, hi, hm] at htr
    · cases v with
      | obj sub =>
        simp only [transform, reservedKeys, transformLoop, hi,
          Except.ok.injEq] at htr
        subst htr
        have hm : getVal record "metric" = none := by
          rcases h12 with h | h
          · rw [hi] at h; exact Option.noConfusion h
          · exact h
        have hu : getVal record "uk_hybrid" = none := by
          rcases h13 with h | h
          · rw [hi] at h; exact Option.noConfusion h
          · exact h
        have hres := merged_reserved_none record "imperial" sub hnd
          (by intro a ha hne
              simp only [reservedKeys, List.mem_cons, List.not_mem_nil,
                or_false] at ha
              rcases ha with rfl | rfl | rfl
              · exact absurd rfl hne
              · exact hm
              · exact hu)
          (hsub "imperial" (by simp [reservedKeys]) sub hi)
        exact transform_of_none _
          (hres "imperial" (by simp [reservedKeys]))
          (hres "metric" (by simp [reservedKeys]))
          (hres "uk_hybrid" (by simp [reservedKeys]))
      | null => simp [transform, reservedKeys, transformLoop, hi] at htr
      | bool b => simp [transform, reservedKeys, transformLoop, hi] at htr
      | num n => simp [transform, reservedKeys, transformLoop, hi] at htr
      | str s => simp [transform, reservedKeys, transformLoop, hi] at htr
      | arr es => simp [transform, reservedKeys, transformLoop, hi] at htr
  rcases htr : transform record with e | r
  · rfl
  · show Except.bind (Except.ok r) transform = Except.ok r
    exact key r htr

/-- Witness for the amended C3 on the spec's example record, whose
`imperial` sub-object holds only measurement keys. -/
theorem c3_amended_witness :
    Except.bind
        (transform [("obsTimeUtc", JSON.str "t"),
                    ("imperial", JSON.obj [("temp", JSON.num 72)])])
        transform
      = transform [("obsTimeUtc", JSON.str "t"),
                   ("imperial", JSON.obj [("temp", JSON.num 72)])] :=
  c3_amended
    [("obsTimeUtc", JSON.str "t"), ("imperial", JSON.obj [("temp", JSON.num 72)])]
    (by decide)
    ⟨Or.inr rfl, Or.inr rfl, Or.inl rfl⟩
    (by
      intro a ha sub hs p hp
      simp only [reservedKeys, List.mem_cons, List.not_mem_nil, or_false] at ha
      rcases ha with rfl | rfl | rfl
      · rw [show getVal
              [("obsTimeUtc", JSON.str "t"),
               ("imperial", JSON.obj [("temp", JSON.num 72)])] "imperial"
            = some (JSON.obj [("temp", JSON.num 72)]) from rfl] at hs
        injection hs with h1
        injection h1 with h2
        subst h2
        simp only [List.mem_singleton] at hp
        subst hp
        decide
      · exact Option.noConfusion hs
      · exact Option.noConfusion hs)

/-- Counterexample to claim C4 as stated: in
`[("temp", 1), ("imperial", obj [("temp", 2)])]` the sub-object's `temp`
overwrites the other top-level field `temp`, so that field is not
unchanged after normalization. -/
theorem c4_counterexample :
    transform [("temp", JSON.num 1), ("imperial", JSON.obj [("temp", JSON.num 2)])]
      = Except.ok [("temp", JSON.num 2)] ∧
    getVal [("temp", JSON.num 1), ("imperial", JSON.obj [("temp", JSON.num 2)])]
        "temp" = some (JSON.num 1) ∧
    some (JSON.num 2) ≠ some (JSON.num 1) := by
  refine ⟨rfl, rfl, fun h => ?_⟩
  injection h with h1
  injection h1 with h2
  exact absurd h2 (by decide)

/-- Claim C4 as amended (proved): for a record with distinct keys holding
exactly one reserved key, whose object value's keys do not occur at the
record's top level (the counterexample shows that proviso is necessary —
note it also rules out the sub-object reusing the reserved key itself,
which the deletion would otherwise drop), normalization removes the
reserved key, surfaces every sub-object pair unchanged, and leaves every
other top-level field unchanged. -/
theorem c4_amended (record : Record) (attr : String) (sub : Record)
    (hattr : attr ∈ reservedKeys)
    (hget : getVal record attr = some (JSON.obj sub))
    (hothers : ∀ a ∈ reservedKeys, a ≠ attr → getVal record a = none)
    (hnd : nodupKeys record) (hndsub : nodupKeys sub)
    (hfresh : ∀ p ∈ sub, getVal record p.1 = none) :
    transform record = Except.ok (delKey (updateDict record sub) attr) ∧
    getVal (delKey (updateDict record sub) attr) attr = none ∧
    (∀ p ∈ sub, getVal (delKey (updateDict record sub) attr) p.1 = some p.2) ∧
    (∀ (k : String) (w : JSON), k ≠ attr → getVal record k = some w →
      getVal (delKey (updateDict record sub) attr) k = some w) := by
  have hsubne : ∀ p ∈ sub, p.1 ≠ attr := by
    intro p hp hpa
    have := hfresh p hp
    rw [hpa, hget] at this
    exact Option.noConfusion this
  refine ⟨transform_eq_of_single record attr sub hattr hget hothers, ?_, ?_, ?_⟩
  · exact getVal_delKey_self (updateDict record sub) attr
      (nodupKeys_updateDict sub record hnd)
  · intro p hp
    rw [getVal_delKey_ne (updateDict record sub) attr p.1 (hsubne p hp)]
    exact getVal_updateDict_of_mem sub record p.1 p.2 hndsub hp
  · intro k w hk hw
    have hknotin : ∀ p ∈ sub, p.1 ≠ k := by
      intro p hp hpk
      have := hfresh p hp
      rw [hpk, hw] at this
      exact Option.noConfusion this
    rw [getVal_delKey_ne (updateDict record sub) attr k hk]
    rw [getVal_updateDict_of_not_mem sub record k hknotin]
    exact hw

/-- Witness for the amended C4 on the spec's example record. -/
theorem c4_amended_witness :
    transform [("obsTimeUtc", JSON.str "t"),
               ("imperial", JSON.obj [("temp", JSON.num 72)])]
      = Except.ok [("obsTimeUtc", JSON.str "t"), ("temp", JSON.num 72)] ∧
    getVal [("obsTimeUtc", JSON.str "t"), ("temp", JSON.num 72)] "imperial"
      = none := by
  have h := c4_amended
    [("obsTimeUtc", JSON.str "t"), ("imperial", JSON.obj [("temp", JSON.num 72)])]
    "imperial"
    [("temp", JSON.num 72)]
    (by decide)
    rfl
    (by
      intro a ha hne
      simp only [reservedKeys, List.mem_cons, List.not_mem_nil, or_false] at ha
      rcases ha with rfl | rfl | rfl
      · exact absurd rfl hne
      · rfl
      · rfl)
    (by decide)
    (by decide)
    (by
      intro p hp
      simp only [List.mem_singleton] at hp
      subst hp
      rfl)
  exact ⟨h.1, h.2.1⟩

/-- Claim C6 (confirmed): if the per-day fetch results are non-empty,
well-formed records for every day after D down to the traversal start s,
and empty at day D (with any end bound not cutting in before D), then
the daily range loop yields exactly one normalized record per non-empty
day, newest first, and terminates at D yielding nothing for D or any
earlier day — the run is the finite list `expectedYields res s (s-D)`. -/
theorem c6_daily_range_termination (fetch : Int → List Record)
    (res : Int → Record) (end_ : Option Int) (D : Int)
    (hD : fetch D = [])
    (hend : ∀ e, end_ = some e → e ≤ D) :
    ∀ (fuel : Nat) (s : Int), D ≤ s → (s - D).toNat < fuel →
      (∀ d : Int, D < d → d ≤ s →
        history_daily (fetch d) = Except.ok (some (res d)) ∧
        (res d).isEmpty = false) →
      history_daily_range_loop fetch end_ fuel s
        = Except.ok (expectedYields res s (s - D).toNat) := by
  intro fuel
  induction fuel with
  | zero => intro s h1 h2 _; omega
  | succ f ih =>
    intro s hs hfuel hres
    have hc : loopCond end_ s = true := loopCond_of_le end_ D s hend hs
    rcases eq_or_lt_of_le hs with heq | hlt
    · subst heq
      have hzero : (D - D).toNat = 0 := by omega
      rw [hzero]
      simp [history_daily_range_loop, hc, hD, history_daily, expectedYields]
    · obtain ⟨hfetch, hne⟩ := hres s hlt le_rfl
      have hn : (s - D).toNat = ((s - 1) - D).toNat + 1 := by omega
      rw [hn]
      simp only [history_daily_range_loop, hc, if_true, hfetch, hne,
        Bool.false_eq_true, if_false]
      rw [ih (s - 1) (by omega) (by omega)
        (fun d hd1 hd2 => hres d hd1 (by omega))]
      simp [Except.map, expectedYields]

/-- Witness for C6: days 1..3 have one summary each, day 0 is empty; the
loop from day 3 yields the three records newest first and stops. -/
theorem c6_witness :
    history_daily_range_loop fetchC6 none 5 3
      = Except.ok [[("temp", JSON.num 3)], [("temp", JSON.num 2)],
                   [("temp", JSON.num 1)]] :=
  c6_daily_range_termination fetchC6 resC6 none 0 rfl
    (fun e h => Option.noConfusion h) 5 3 (by omega) (by omega)
    (by
      intro d h1 h2
      have h3 : d = 1 ∨ d = 2 ∨ d = 3 := by omega
      rcases h3 with rfl | rfl | rfl <;> exact ⟨rfl, rfl⟩)

/-- Claim C8 (confirmed): under the same termination shape as C6, the
hourly range loop yields, for each non-empty day newest first, that
day's normalized records in exactly the reverse of fetch order, before
stepping to the previous day — the run is the finite list
`expectedHourlyYields resH s (s-D)`, whose per-day batch is
`(resH d).reverse`. -/
theorem c8_hourly_reverse_order (fetch : Int → List Record)
    (resH : Int → List Record) (end_ : Option Int) (D : Int)
    (hD : fetch D = [])
    (hend : ∀ e, end_ = some e → e ≤ D) :
    ∀ (fuel : Nat) (s : Int), D ≤ s → (s - D).toNat < fuel →
      (∀ d : Int, D < d → d ≤ s →
        history_hourly (fetch d) = Except.ok (resH d) ∧
        (resH d).isEmpty = false) →
      history_hourly_range_loop fetch end_ fuel s
        = Except.ok (expectedHourlyYields resH s (s - D).toNat) := by
  intro fuel
  induction fuel with
  | zero => intro s h1 h2 _; omega
  | succ f ih =>
    intro s hs hfuel hres
    have hc : loopCond end_ s = true := loopCond_of_le end_ D s hend hs
    rcases eq_or_lt_of_le hs with heq | hlt
    · subst heq
      have hzero : (D - D).toNat = 0 := by omega
      rw [hzero]
      simp [history_hourly_range_loop, hc, hD, history_hourly, transformAll,
        expectedHourlyYields]
    · obtain ⟨hfetch, hne⟩ := hres s hlt le_rfl
      have hn : (s - D).toNat = ((s - 1) - D).toNat + 1 := by omega
      rw [hn]
      simp only [history_hourly_range_loop, hc, if_true, hfetch, hne,
        Bool.false_eq_true, if_false]
      rw [ih (s - 1) (by omega) (by omega)
        (fun d hd1 hd2 => hres d hd1 (by omega))]
      simp [Except.map, expectedHourlyYields]

/-- Witness for C8: two hourly records per day on days 1..2, day 0 empty;
each day's batch comes out latest hour first. -/
theorem c8_witness :
    history_hourly_range_loop fetchC8 none 4 2
      = Except.ok [[("h", JSON.num 21)], [("h", JSON.num 20)],
                   [("h", JSON.num 11)], [("h", JSON.num 10)]] :=
  c8_hourly_reverse_order fetchC8 resC8 none 0 rfl
    (fun e h => Option.noConfusion h) 4 2 (by omega) (by omega)
    (by
      intro d h1 h2
      have h3 : d = 1 ∨ d = 2 := by omega
      rcases h3 with rfl | rfl <;> exact ⟨rfl, rfl⟩)

/-- Claim C7 (confirmed): with both dates explicit, `start < end` makes
the generators swap the two before iterating; the days fetched are then
exactly the effective start, each preceding day in order, down to and
including the effective end (shown when every day in the range has
well-formed data, so no early exhaustion intervenes); and
unconditionally — for any fetch behaviour — the bound is checked before
each fetch, so no day earlier than the effective end `min start end` is
ever fetched, for either generator. -/
theorem c7_swap_and_inclusive_bound :
    (∀ today s e : Int, s < e →
      rangeInit today (some s) (some e) = Except.ok (e, some s)) ∧
    (∀ (fetch : Int → List Record) (res : Int → Record) (today s e : Int)
        (fuel : Nat), s < e → (e - s).toNat < fuel →
      (∀ d : Int, s ≤ d → d ≤ e →
        history_daily (fetch d) = Except.ok (some (res d)) ∧
        (res d).isEmpty = false) →
      history_daily_range_dates fetch today (some s) (some e) fuel
        = descDates e ((e - s).toNat + 1)) ∧
    (∀ (fetch : Int → List Record) (resH : Int → List Record)
        (today s e : Int) (fuel : Nat), s < e → (e - s).toNat < fuel →
      (∀ d : Int, s ≤ d → d ≤ e →
        history_hourly (fetch d) = Except.ok (resH d) ∧
        (resH d).isEmpty = false) →
      history_hourly_range_dates fetch today (some s) (some e) fuel
        = descDates e ((e - s).toNat + 1)) ∧
    (∀ (fetch : Int → List Record) (today s e : Int) (fuel : Nat) (d : Int),
      d ∈ history_daily_range_dates fetch today (some s) (some e) fuel →
      min s e ≤ d) ∧
    (∀ (fetch : Int → List Record) (today s e : Int) (fuel : Nat) (d : Int),
      d ∈ history_hourly_range_dates fetch today (some s) (some e) fuel →
      min s e ≤ d) := by
  have hswap : ∀ today s e : Int, s < e →
      rangeInit today (some s) (some e) = Except.ok (e, some s) := by
    intro today s e h
    simp [rangeInit, h]
  refine ⟨hswap, ?_, ?_, ?_, ?_⟩
  · intro fetch res today s e fuel hlt hfuel hres
    simp only [history_daily_range_dates, hswap today s e hlt]
    exact daily_loop_dates_desc fetch res s fuel e (le_of_lt hlt) hfuel hres
  · intro fetch resH today s e fuel hlt hfuel hres
    simp only [history_hourly_range_dates, hswap today s e hlt]
    exact hourly_loop_dates_desc fetch resH s fuel e (le_of_lt hlt) hfuel hres
  · intro fetch today s e fuel d hmem
    by_cases h : s < e
    · simp only [history_daily_range_dates, hswap today s e h] at hmem
      exact le_trans (min_le_left s e)
        (daily_loop_dates_lower_bound fetch s fuel e d hmem)
    · rw [show history_daily_range_dates fetch today (some s) (some e) fuel
            = daily_loop_dates fetch (some e) fuel s by
          simp [history_daily_range_dates, rangeInit, h]] at hmem
      exact le_trans (min_le_right s e)
        (daily_loop_dates_lower_bound fetch e fuel s d hmem)
  · intro fetch today s e fuel d hmem
    by_cases h : s < e
    · simp only [history_hourly_range_dates, hswap today s e h] at hmem
      exact le_trans (min_le_left s e)
        (hourly_loop_dates_lower_bound fetch s fuel e d hmem)
    · rw [show history_hourly_range_dates fetch today (some s) (some e) fuel
            = hourly_loop_dates fetch (some e) fuel s by
          simp [history_hourly_range_dates, rangeInit, h]] at hmem
      exact le_trans (min_le_right s e)
        (hourly_loop_dates_lower_bound fetch e fuel s d hmem)

/-- Witness for C7: a call with `start = 1 < end = 3` swaps, and with data
on every day it fetches exactly days 3, 2, 1. -/
theorem c7_witness :
    rangeInit 0 (some 1) (some 3) = Except.ok (3, some 1) ∧
    history_daily_range_dates fetchC7 0 (some 1) (some 3) 5 = [3, 2, 1] :=
  ⟨c7_swap_and_inclusive_bound.1 0 1 3 (by omega),
   c7_swap_and_inclusive_bound.2.1 fetchC7 resC7 0 1 3 5 (by omega) (by omega)
    (fun d h1 h2 => ⟨rfl, rfl⟩)⟩
